import Mathlib

/-!
Verification development for the pons crawler and similarity-search core.

The Go sources are shallowly embedded:
* `golang.org/x/net/html` document trees become the inductive `HtmlNode`
  (node type, `Data`, `Attr`, children), and the pure tree-walking functions
  (`extractTitle`, `extractDescription`, `findMainContentNode`, `extractText`,
  `extractLinks`) are translated structurally.
* URLs become the record `GoURL`; `url.Parse`, `baseURL.ResolveReference` and
  the HTTP fetch are oracles passed as function parameters, since they are
  external library or network effects.
* `Scraper.Crawl` becomes `crawl`, with the mutable `visited`/`paths` maps as
  explicit state and the recursion depth turned into the fuel
  `MaxDepth + 1 - depth` (the Go code stops as soon as `depth > MaxDepth`,
  which is exactly fuel `0`); ghost fields log fetch attempts and recordings.
* `float32`/`float64` values are modelled as exact rationals and `math.Sqrt`
  as an oracle parameter `sqrtF`; Go `sort.Slice` is modelled by a parameter
  constrained to its documented contract (a permutation that is sorted by the
  supplied comparison; the library documents that stability is NOT guaranteed).
-/

/-- Node types of `golang.org/x/net/html.Node` that the scraper inspects. -/
inductive NodeType where
  | element
  | text
  | document
  | comment
  | doctype
deriving DecidableEq, Repr

/-- Shallow embedding of `html.Node`: node type, `Data` (tag name for
elements, text for text nodes), attributes (`Attr` key/value pairs) and the
child list (`FirstChild`/`NextSibling` chain). -/
inductive HtmlNode where
  | node (ty : NodeType) (data : String) (attrs : List (String × String)) (children : List HtmlNode)
deriving Repr

/-- The `Data` field of a node. -/
def HtmlNode.dataOf : HtmlNode → String
  | .node _ d _ _ => d

/-- The node type of a node. -/
def HtmlNode.tyOf : HtmlNode → NodeType
  | .node t _ _ _ => t

/-- The attribute list of a node. -/
def HtmlNode.attrsOf : HtmlNode → List (String × String)
  | .node _ _ a _ => a

/-- The child list of a node. -/
def HtmlNode.childrenOf : HtmlNode → List HtmlNode
  | .node _ _ _ c => c

/-- Placeholder node used only to give `List.headD` a default; it is never
reached when the guard has already established the child list is nonempty. -/
def HtmlNode.dummy : HtmlNode := .node .text "" [] []

/-- A parsed URL, as the scraper uses it: `Host`, `Path` and the remaining
components (query, fragment, scheme) lumped into one string. -/
structure GoURL where
  host : String
  path : String
  extra : String
deriving DecidableEq, Repr

/-- Models `url.URL.String()`: the string key under which Crawl stores a URL
in its `visited` map.  Only determinism matters for the embedding. -/
def GoURL.str (u : GoURL) : String := u.host ++ u.path ++ u.extra

/-- Result of a successful `fetchURL`: the parsed document and the raw body. -/
structure Page where
  doc : HtmlNode
  body : String

/-- State threaded through `Scraper.Crawl`: the `visited` map (as its insertion
ordered key list), the `paths` map keys, `SubPathsHTMLContent` (most recent
entry first), plus two ghost observation logs that record every URL whose
fetch was attempted and every URL whose page was recorded. -/
structure CrawlState where
  visited : List String
  pathsSet : List String
  content : List (String × String)
  fetchLog : List GoURL
  recorded : List GoURL
deriving DecidableEq, Repr

/-- The empty crawl state `GetAllPaths` starts from. -/
def initCrawlState : CrawlState := ⟨[], [], [], [], []⟩

/-- Go `path == "" ? "/" : path` normalisation in `Crawl`. -/
def normPath (p : String) : String := if p = "" then "/" else p

/-- Insertion into the key set of a Go map (`paths[path] = true`). -/
def insertKey (s : List String) (k : String) : List String :=
  if k ∈ s then s else s ++ [k]

/-- The body of the `href` handling in `extractLinks`: for each attribute with
key `href`, parse/resolve it (`url.Parse` + `ResolveReference`, modelled by
the oracle `resolve`; `none` models a parse failure, which is skipped), then
keep it only if its host equals the base host and it is not yet visited. -/
def anchorLinks (resolve : GoURL → String → Option GoURL) (base : GoURL)
    (visited : List String) (attrs : List (String × String)) : List GoURL :=
  attrs.foldl (fun acc attr =>
    if attr.1 = "href" then
      match resolve base attr.2 with
      | none => acc
      | some r => if r.host = base.host ∧ r.str ∉ visited then acc ++ [r] else acc
    else acc) []

mutual

/-- `extractLinks` from the scraper: walk the tree; at each anchor element
collect the same-host, not-yet-visited, successfully resolved link targets of
its `href` attributes, then recurse into the children. -/
def extractLinks (resolve : GoURL → String → Option GoURL) (base : GoURL)
    (visited : List String) : HtmlNode → List GoURL
  | .node ty data attrs children =>
    (if ty = NodeType.element ∧ data = "a" then anchorLinks resolve base visited attrs else [])
      ++ extractLinksList resolve base visited children

/-- Child-list traversal of `extractLinks`. -/
def extractLinksList (resolve : GoURL → String → Option GoURL) (base : GoURL)
    (visited : List String) : List HtmlNode → List GoURL
  | [] => []
  | c :: cs =>
    extractLinks resolve base visited c ++ extractLinksList resolve base visited cs

end

/-- `Scraper.Crawl`, with the recursion depth replaced by the equivalent fuel
`MaxDepth + 1 - depth`: fuel `0` is exactly the Go guard `depth > MaxDepth`.
The Boolean result is `false` when Crawl returns an error (fetch failure of
the current URL); errors of recursive child calls are logged and dropped in
Go, hence only the state component of a child call is kept. -/
def crawl (fetch : String → Option Page) (resolve : GoURL → String → Option GoURL)
    (base : GoURL) : Nat → GoURL → CrawlState → CrawlState × Bool
  | 0, _, st => (st, true)
  | fuel + 1, cur, st =>
    let urlStr := cur.str
    if urlStr ∈ st.visited then (st, true)
    else
      let st1 : CrawlState :=
        { st with visited := st.visited ++ [urlStr], fetchLog := st.fetchLog ++ [cur] }
      match fetch urlStr with
      | none => (st1, false)
      | some page =>
        let path := normPath cur.path
        let st2 : CrawlState :=
          { st1 with pathsSet := insertKey st1.pathsSet path
                     content := (path, page.body) :: st1.content
                     recorded := st1.recorded ++ [cur] }
        let links := extractLinks resolve base st2.visited page.doc
        (links.foldl (fun acc l => (crawl fetch resolve base fuel l acc).1) st2, true)

/-- `Scraper.GetAllPaths`: parse the seed URL (oracle `parse`; `none` models a
parse error, which is fatal), then run `Crawl` from the seed at depth `0`,
i.e. with fuel `MaxDepth + 1`.  A Crawl error makes `GetAllPaths` return an
error (`none`); on success the final crawl state is returned. -/
def getAllPaths (parse : String → Option GoURL) (fetch : String → Option Page)
    (resolve : GoURL → String → Option GoURL) (maxDepth : Int) (seedURL : String) :
    Option CrawlState :=
  match parse seedURL with
  | none => none
  | some base =>
    let r := crawl fetch resolve base (maxDepth + 1).toNat base initCrawlState
    if r.2 then some r.1 else none

/-- `extractTitle` from the scraper: a `title` element that has a first child
returns that first child `Data` immediately; otherwise the children are
scanned in order and the first non-empty recursive result wins. -/
def isTitleWithChild (n : HtmlNode) : Bool :=
  n.tyOf = NodeType.element && n.dataOf = "title" && !n.childrenOf.isEmpty

mutual

/-- `extractTitle` (scraper.go): the Go function returns `n.FirstChild.Data`
as soon as it reaches a `title` element with a child, and otherwise keeps the
first non-empty result from recursing over the children. -/
def extractTitle : HtmlNode → String
  | .node ty data attrs children =>
    if isTitleWithChild (.node ty data attrs children) then
      (children.headD HtmlNode.dummy).dataOf
    else
      extractTitleList children

/-- Child loop of `extractTitle`: first non-empty recursive result. -/
def extractTitleList : List HtmlNode → String
  | [] => ""
  | c :: cs =>
    let t := extractTitle c
    if t ≠ "" then t else extractTitleList cs

end

/-- The attribute scan inside `extractDescription`: `isDesc` is set when some
attribute is `name="description"`, `content` keeps the value of the last
`content` attribute; the content is returned only when both were seen. -/
def metaDescContent (attrs : List (String × String)) : Option String :=
  let isDesc := attrs.any (fun a => a.1 = "name" && a.2 = "description")
  let content := attrs.foldl
    (fun acc a => if a.1 = "content" then some a.2 else acc) (none : Option String)
  if isDesc then content else none

/-- Whether a node is a `meta` element whose attributes carry a description. -/
def isDescMeta (n : HtmlNode) : Bool :=
  n.tyOf = NodeType.element && n.dataOf = "meta" && (metaDescContent n.attrsOf).isSome

mutual

/-- `extractDescription` (scraper.go): a `meta` element with
`name="description"` and a `content` attribute returns that content
immediately; otherwise the children are scanned for the first non-empty
recursive result. -/
def extractDescription : HtmlNode → String
  | .node ty data attrs children =>
    if ty = NodeType.element ∧ data = "meta" then
      match metaDescContent attrs with
      | some c => c
      | none => extractDescriptionList children
    else
      extractDescriptionList children

/-- Child loop of `extractDescription`. -/
def extractDescriptionList : List HtmlNode → String
  | [] => ""
  | c :: cs =>
    let d := extractDescription c
    if d ≠ "" then d else extractDescriptionList cs

end

/-- Extracted page metadata (`Metadata` struct of the scraper). -/
structure Metadata where
  title : String
  description : String
deriving DecidableEq, Repr

/-- `Scraper.GetMetadata`: errors when `GetContent` has not populated the
content yet, otherwise extracts title and description from the tree. -/
def getMetadata : Option HtmlNode → Except String Metadata
  | none => .error "content not found, call GetContent first"
  | some doc => .ok ⟨extractTitle doc, extractDescription doc⟩

/-- Tag test used by `findMainContentNode`: `main` or `article` element. -/
def isMainTag (n : HtmlNode) : Bool :=
  n.tyOf = NodeType.element && (n.dataOf = "main" || n.dataOf = "article")

/-- Attribute test used by `findMainContentNode`: an `id` attribute whose
value is `content` or `main`. -/
def hasMainId (n : HtmlNode) : Bool :=
  n.tyOf = NodeType.element &&
    n.attrsOf.any (fun a => a.1 = "id" && (a.2 = "content" || a.2 = "main"))

/-- `body` element test used by the fallback search. -/
def isBodyTag (n : HtmlNode) : Bool :=
  n.tyOf = NodeType.element && n.dataOf = "body"

mutual

/-- The first (pre-order) traversal inside `findMainContentNode`: at each
element the tag condition is checked, then the `id` condition, and the first
node satisfying either is returned; children are visited in order and the
walk stops as soon as a node was found (`if mainNode != nil return`). -/
def findCandidate : HtmlNode → Option HtmlNode
  | .node ty data attrs children =>
    if isMainTag (.node ty data attrs children) then some (.node ty data attrs children)
    else if hasMainId (.node ty data attrs children) then some (.node ty data attrs children)
    else findCandidateList children

/-- Child loop of the candidate search. -/
def findCandidateList : List HtmlNode → Option HtmlNode
  | [] => none
  | c :: cs =>
    match findCandidate c with
    | some n => some n
    | none => findCandidateList cs

end

mutual

/-- The `findBody` fallback traversal of `findMainContentNode`. -/
def findBody : HtmlNode → Option HtmlNode
  | .node ty data attrs children =>
    if isBodyTag (.node ty data attrs children) then some (.node ty data attrs children)
    else findBodyList children

/-- Child loop of the body search. -/
def findBodyList : List HtmlNode → Option HtmlNode
  | [] => none
  | c :: cs =>
    match findBody c with
    | some n => some n
    | none => findBodyList cs

end

/-- `findMainContentNode` (scraper.go): the single-pass candidate search,
falling back to the first `body` element, and `none` when neither exists
(the Go function then returns `nil`). -/
def findMainContentNode (doc : HtmlNode) : Option HtmlNode :=
  match findCandidate doc with
  | some n => some n
  | none => findBody doc

mutual

/-- `extractText` (scraper.go): a text node yields its `Data`; `script` and
`style` elements yield the empty string; every other node concatenates, for
each child in order, the text of the child followed by one space. -/
def extractText : HtmlNode → String
  | .node ty data _ children =>
    if ty = NodeType.text then data
    else if ty = NodeType.element ∧ (data = "script" ∨ data = "style") then ""
    else extractTextList children

/-- The `text += extractText(c) + " "` loop of `extractText`. -/
def extractTextList : List HtmlNode → String
  | [] => ""
  | c :: cs => extractText c ++ " " ++ extractTextList cs

end

/-- `Scraper.ScrapeContent` after a successful fetch: choose the main node
and extract its text; error when no node was chosen. -/
def scrapeContent (doc : HtmlNode) : Except String String :=
  match findMainContentNode doc with
  | none => .error "could not find main content"
  | some n => .ok (extractText n)

mutual

/-- Pre-order listing of all nodes of a tree (specification-side helper). -/
def preorderList : HtmlNode → List HtmlNode
  | .node ty data attrs children =>
    .node ty data attrs children :: preorderListForest children

/-- Pre-order listing of a forest. -/
def preorderListForest : List HtmlNode → List HtmlNode
  | [] => []
  | c :: cs => preorderList c ++ preorderListForest cs

end

mutual

/-- Specification-side helper: the `Data` of all text nodes of a tree in
document order, with `script`/`style` subtrees excluded entirely. -/
def collectTexts : HtmlNode → List String
  | .node ty data _ children =>
    if ty = NodeType.text then [data]
    else if ty = NodeType.element ∧ (data = "script" ∨ data = "style") then []
    else collectTextsForest children

/-- Forest version of `collectTexts`. -/
def collectTextsForest : List HtmlNode → List String
  | [] => []
  | c :: cs => collectTexts c ++ collectTextsForest cs

end

/-- Remove every space character from a string (specification-side helper for
comparing extracted text up to whitespace placement). -/
def despace (s : String) : String := ⟨s.toList.filter (fun c => c ≠ ' ')⟩

/-- Modelled from the claim wording of C8 (not from the source): first node
with tag `main`/`article` anywhere in the tree; only if none exists, the
first node with `id` equal to `content`/`main`; only then the first `body`;
else the whole tree. -/
def specFindMainPerClaim (doc : HtmlNode) : Option HtmlNode :=
  match (preorderList doc).find? isMainTag with
  | some n => some n
  | none =>
    match (preorderList doc).find? hasMainId with
    | some n => some n
    | none =>
      match (preorderList doc).find? isBodyTag with
      | some n => some n
      | none => some doc

/-- Modelled from the claim wording of C9 (not from the source): the text of
the first `title` element in pre-order, taken as the concatenated `Data` of
its text-node children; the empty string when the tree has no `title`. -/
def specFirstTitleText (doc : HtmlNode) : String :=
  match (preorderList doc).find? (fun n =>
      n.tyOf = NodeType.element && n.dataOf = "title") with
  | none => ""
  | some n => String.join ((n.childrenOf.filter (fun c => c.tyOf = NodeType.text)).map
      HtmlNode.dataOf)

/-- `storage.Document`: embedding vectors are `float32` slices in Go, modelled
as exact rationals. -/
structure Document where
  url : String
  title : String
  description : String
  content : String
  checksum : String
  embeddings : List ℚ
  context : String
  sourceType : String
deriving DecidableEq, Repr

/-- `api.SearchResult`: a document together with its similarity score. -/
structure SearchResult where
  doc : Document
  score : ℚ
deriving DecidableEq, Repr

/-- `cosineSimilarity` (api.go): length mismatch is an error; otherwise one
index loop accumulates the dot product and both squared magnitudes; a zero
squared magnitude on either side short-circuits to similarity `0`; otherwise
the result is `dot / (sqrt(aMag) * sqrt(bMag))`.  `math.Sqrt` is the oracle
parameter `sqrtF` and float arithmetic is modelled exactly on `ℚ`. -/
def cosineSimilarity (sqrtF : ℚ → ℚ) (a b : List ℚ) : Except String ℚ :=
  if a.length ≠ b.length then .error "vectors must have the same length"
  else
    let s := (List.range a.length).foldl
      (fun (acc : ℚ × ℚ × ℚ) i =>
        (acc.1 + a.getD i 0 * b.getD i 0,
         acc.2.1 + a.getD i 0 * a.getD i 0,
         acc.2.2 + b.getD i 0 * b.getD i 0))
      (0, 0, 0)
    if s.2.1 = 0 ∨ s.2.2 = 0 then .ok 0
    else .ok (s.1 / (sqrtF s.2.1 * sqrtF s.2.2))

/-- The scoring loop of `API.Search` (api.go, the variant taking a query
embedding): skip documents with empty embeddings, skip documents whose
`cosineSimilarity` errors (length mismatch), keep `(doc, score)` pairs in
corpus order. -/
def searchScores (sqrtF : ℚ → ℚ) (q : List ℚ) : List Document → List SearchResult
  | [] => []
  | d :: ds =>
    if d.embeddings.length = 0 then searchScores sqrtF q ds
    else
      match cosineSimilarity sqrtF q d.embeddings with
      | .error _ => searchScores sqrtF q ds
      | .ok s => ⟨d, s⟩ :: searchScores sqrtF q ds

/-- Outcome of a Go function that can return a value, return an error, or
panic at runtime. -/
inductive GoResult (α : Type) where
  | ok (val : α)
  | err (msg : String)
  | panicked
deriving DecidableEq, Repr

/-- Go slice expression `l[:k]` with an `int` bound: panics unless
`0 ≤ k ≤ len(l)`. -/
def goSliceTo {α : Type} (l : List α) (k : Int) : GoResult (List α) :=
  if 0 ≤ k ∧ k ≤ (l.length : Int) then .ok (l.take k.toNat) else .panicked

/-- `API.Search` (api.go, query-embedding variant).  The corpus `docs` is what
`storage.ListDocuments(context, numResults)` returned (storage is an external
collaborator, so the post-filtering corpus is an input).  `sortImpl` is the
`sort.Slice` call on the scored results with
`less i j := results[i].Score > results[j].Score`; the Go library promises a
permutation that is sorted for that comparison and explicitly does NOT
promise stability, so theorems constrain `sortImpl` exactly that much. -/
def search (sqrtF : ℚ → ℚ) (sortImpl : List SearchResult → List SearchResult)
    (docs : List Document) (queryEmbedding : List ℚ) (numResults : Int) :
    GoResult (List SearchResult) :=
  if docs.length = 0 then .err "no documents in storage to search"
  else
    let results := sortImpl (searchScores sqrtF queryEmbedding docs)
    if (results.length : Int) > numResults then goSliceTo results numResults
    else .ok results

/-- Modelled from the claim wording of C3 (not from the source): stable
insertion of a result into a list sorted by descending score; a tie goes
after the already placed elements, preserving corpus order. -/
def insertDesc (r : SearchResult) : List SearchResult → List SearchResult
  | [] => [r]
  | x :: xs => if r.score > x.score then r :: x :: xs else x :: insertDesc r xs

/-- Modelled from the claim wording of C3 (not from the source): stable sort
by descending score (left-to-right insertion sort, ties keep original corpus
order). -/
def specStableSortDesc (l : List SearchResult) : List SearchResult :=
  l.foldl (fun acc r => insertDesc r acc) []

/-- Go slice expression `l[start:stop]` with `int` bounds: panics unless
`0 ≤ start ≤ stop ≤ len(l)`. -/
def goSubSlice {α : Type} (l : List α) (start stop : Int) : GoResult (List α) :=
  if 0 ≤ start ∧ start ≤ stop ∧ stop ≤ (l.length : Int) then
    .ok ((l.take stop.toNat).drop start.toNat)
  else .panicked

/-- The pagination computation of the `list_documents` MCP handler
(core.go): `start := offset`, `end := start + limit`, clamp `end` to
`len(docs)`, then slice `docs[start:end]`.  The handler performs exactly this
on the document list returned by `ListDocuments`. -/
def listDocumentsPage (docs : List Document) (offset limit : Int) :
    GoResult (List Document) :=
  let start := offset
  let stop := start + limit
  let stop2 := if stop > (docs.length : Int) then (docs.length : Int) else stop
  goSubSlice docs start stop2

/-- The `href` attribute values of an attribute list, in order
(specification-side helper for characterising `extractLinks`). -/
def hrefValues (attrs : List (String × String)) : List String :=
  attrs.filterMap (fun a => if a.1 = "href" then some a.2 else none)

/-- Specification-side characterisation of `extractLinks`: all `href` values
of anchor elements in pre-order, resolved (dropping parse failures), keeping
the same-host, not-yet-visited targets. -/
def specLinks (resolve : GoURL → String → Option GoURL) (base : GoURL)
    (visited : List String) (doc : HtmlNode) : List GoURL :=
  (((preorderList doc).flatMap
      (fun n => if n.tyOf = NodeType.element ∧ n.dataOf = "a" then hrefValues n.attrsOf
                else [])).filterMap
        (fun s => resolve base s)).filter
    (fun r => decide (r.host = base.host ∧ r.str ∉ visited))

/-- A `title` element test (any children). -/
def isTitleElem (n : HtmlNode) : Bool :=
  n.tyOf = NodeType.element && n.dataOf = "title"

/-- The value `extractTitle` computes on well-formed trees: the first-child
`Data` of the first pre-order `title` element, empty when there is none. -/
def firstTitleData (doc : HtmlNode) : String :=
  match (preorderList doc).find? isTitleElem with
  | none => ""
  | some n => (n.childrenOf.headD HtmlNode.dummy).dataOf

/-- The value `extractDescription` computes on well-formed trees: the content
of the first pre-order description `meta` element, empty when there is none. -/
def firstDescContent (doc : HtmlNode) : String :=
  match (preorderList doc).find? isDescMeta with
  | none => ""
  | some n => (metaDescContent n.attrsOf).getD ""

/-- Example document: embeddings `[1]`, used as corpus element. -/
def docA : Document := ⟨"http://h/a", "", "", "", "", [1], "", ""⟩

/-- Second example document with the same embedding, to create a score tie. -/
def docB : Document := ⟨"http://h/b", "", "", "", "", [1], "", ""⟩

/-- Example document with an empty embedding vector (always skipped). -/
def docNoEmb : Document := ⟨"http://h/c", "", "", "", "", [], "", ""⟩

/-- Example seed URL. -/
def seedGoURL : GoURL := ⟨"h", "/", ""⟩

/-- Example seed page: two same-host anchors. -/
def seedPage : Page :=
  ⟨.node .document "" [] [.node .element "html" [] [.node .element "body" [] [
      .node .element "a" [("href", "/a")] [],
      .node .element "a" [("href", "/b")] []]]], "SEED"⟩

/-- Example parse oracle: recognises exactly the seed URL string. -/
def exParse : String → Option GoURL :=
  fun s => if s = "http://h/" then some seedGoURL else none

/-- Example resolve oracle: every href resolves to a same-host URL with that
path. -/
def exResolve : GoURL → String → Option GoURL :=
  fun b s => some ⟨b.host, s, ""⟩

/-- Example fetch oracle: only the seed URL fetches successfully. -/
def exFetchSeedOnly : String → Option Page :=
  fun s => if s = seedGoURL.str then some seedPage else none

/-- Example fetch oracle: every fetch fails. -/
def exFetchNone : String → Option Page := fun _ => none

/-- Tree in which a `div` with `id="content"` precedes a `main` element in
pre-order (both exist). -/
def exPriorityTree : HtmlNode :=
  .node .document "" [] [.node .element "html" [] [.node .element "body" [] [
    .node .element "div" [("id", "content")] [.node .text "D" [] []],
    .node .element "main" [] [.node .text "M" [] []]]]]

/-- Tree whose first pre-order `title` element is empty (`<title></title>`)
while a later `title` element has text. -/
def exTitleTree : HtmlNode :=
  .node .document "" [] [.node .element "html" [] [
    .node .element "head" [] [.node .element "title" [] []],
    .node .element "body" [] [.node .element "title" [] [.node .text "T2" [] []]]]]

/-- Well-formed metadata tree: one non-empty title, one description meta. -/
def exGoodMetaTree : HtmlNode :=
  .node .document "" [] [.node .element "html" [] [
    .node .element "head" [] [
      .node .element "title" [] [.node .text "T" [] []],
      .node .element "meta" [("name", "description"), ("content", "D")] []]]]

/-- C10: the pagination slice of the `list_documents` handler is not
well-formed for all non-negative `Offset`/`Limit`.  With an empty document
list, `Offset = 1`, `Limit = 1`, the handler computes `end = 0` after
clamping while `start = 1`, and `docs[1:0]` panics with a slice bounds
error; likewise `Offset = 5`, `Limit = 3` on a two-document store.  The code
clamps only `end`, never `start`, so the handler panics instead of returning
an empty page whenever the offset exceeds the stored count. -/
theorem listDocumentsPage_panics_on_offset_past_end :
    listDocumentsPage [] 1 1 = GoResult.panicked ∧
    listDocumentsPage [docA, docB] 5 3 = GoResult.panicked := by decide

/-- C4 counterexample: with a non-empty corpus whose single document is
skipped (empty embedding) and `numResults = -1`, `Search` panics on
`results[:numResults]` instead of returning an empty result list: the scored
list is empty, `len(results) > numResults` holds (`0 > -1`), and the slice
bound is negative. -/
theorem search_skipped_negative_cap_panics :
    search (fun x => x) (fun l => l) [docNoEmb] [1] (-1) = GoResult.panicked := by
  decide

/-- Documents that `Search` skips (empty embedding, or length mismatch with
the query) contribute nothing to the scored result list. -/
theorem searchScores_nil_of_all_skipped (sqrtF : ℚ → ℚ) (q : List ℚ) :
    ∀ docs : List Document,
      (∀ d ∈ docs, d.embeddings = [] ∨ d.embeddings.length ≠ q.length) →
      searchScores sqrtF q docs = [] := by
  intro docs
  induction docs with
  | nil => intro _; rfl
  | cons d ds ih =>
    intro h
    have hd := h d (List.mem_cons_self d ds)
    have hds : searchScores sqrtF q ds = [] :=
      ih (fun x hx => h x (List.mem_cons_of_mem d hx))
    rcases hd with he | hl
    · simp [searchScores, he, hds]
    · have hne : ¬ d.embeddings.length = 0 ∨ d.embeddings.length = 0 := by tauto
      rcases hne with hne | hzero
      · have hq : q.length ≠ d.embeddings.length := fun hc => hl hc.symm
        simp [searchScores, hne, cosineSimilarity, hq, hds]
      · simp [searchScores, hzero, hds]

/-- C4 amended: restricted to a non-negative result cap, `Search` returns an
error exactly when the corpus (as returned by storage after context
filtering) is empty, and a non-empty corpus in which every document is
skipped (empty embedding or length mismatch) yields an empty result list
with no error.  For a negative `numResults` the Go code instead panics on
the final slice expression, which is why the cap must be restricted. -/
theorem search_error_iff_empty_corpus (sqrtF : ℚ → ℚ)
    (sortImpl : List SearchResult → List SearchResult)
    (docs : List Document) (q : List ℚ) (K : Int) (hK : 0 ≤ K)
    (hperm : (sortImpl (searchScores sqrtF q docs)).Perm (searchScores sqrtF q docs)) :
    ((∃ m, search sqrtF sortImpl docs q K = .err m) ↔ docs = []) ∧
    (docs ≠ [] →
      (∀ d ∈ docs, d.embeddings = [] ∨ d.embeddings.length ≠ q.length) →
      search sqrtF sortImpl docs q K = .ok []) := by
  constructor
  · constructor
    · rintro ⟨m, hm⟩
      by_contra hne
      have hlen : ¬ docs.length = 0 := by simpa [List.length_eq_zero] using hne
      unfold search at hm
      rw [if_neg hlen] at hm
      set res := sortImpl (searchScores sqrtF q docs) with hres
      by_cases htr : (res.length : Int) > K
      · rw [if_pos htr] at hm
        have hcond : 0 ≤ K ∧ K ≤ (res.length : Int) := ⟨hK, le_of_lt htr⟩
        rw [goSliceTo, if_pos hcond] at hm
        exact GoResult.noConfusion hm
      · rw [if_neg htr] at hm
        exact GoResult.noConfusion hm
    · intro h
      subst h
      exact ⟨"no documents in storage to search", rfl⟩
  · intro hne hskip
    have hnil := searchScores_nil_of_all_skipped sqrtF q docs hskip
    have hlen : ¬ docs.length = 0 := by simpa [List.length_eq_zero] using hne
    have hresnil : sortImpl (searchScores sqrtF q docs) = [] := by
      rw [hnil]
      rw [hnil] at hperm
      exact List.Perm.eq_nil hperm
    unfold search
    rw [if_neg hlen, hresnil]
    have : ¬ ((([] : List SearchResult).length : Int) > K) := by
      simp
      omega
    rw [if_neg this]

/-- C4 witness: the amended theorem applied to a concrete corpus with one
empty-embedding document and cap `3`. -/
theorem search_error_iff_empty_corpus_witness :
    search (fun x => x) (fun l => l) [docNoEmb] [(1 : ℚ)] 3 = .ok [] :=
  (search_error_iff_empty_corpus (fun x => x) (fun l => l) [docNoEmb] [(1 : ℚ)] 3
      (by decide) (by decide)).2 (by decide) (by decide)

/-- C3 counterexample: the tie-break part of the claim fails.  `Search` sorts
with `sort.Slice`, whose contract only promises a permutation sorted by the
comparison and explicitly does not promise stability.  With the tied corpus
`[docA, docB]` (both score `1`) and the contract-conforming sorting function
`List.reverse` (a permutation, sorted since the scores are equal), `Search`
returns `[docB, docA]`, while the claimed stable order (original corpus
order on ties, as computed by the stable `specStableSortDesc`) is
`[docA, docB]`. -/
theorem search_tie_order_counterexample :
    (List.reverse (searchScores (fun x => x) [1] [docA, docB])).Perm
        (searchScores (fun x => x) [1] [docA, docB]) ∧
    List.Pairwise (fun x y => y.score ≤ x.score)
        (List.reverse (searchScores (fun x => x) [1] [docA, docB])) ∧
    search (fun x => x) List.reverse [docA, docB] [1] 2 =
        .ok [⟨docB, 1⟩, ⟨docA, 1⟩] ∧
    (specStableSortDesc (searchScores (fun x => x) [1] [docA, docB])).take 2 =
        [⟨docA, 1⟩, ⟨docB, 1⟩] ∧
    ([⟨docB, 1⟩, ⟨docA, 1⟩] : List SearchResult) ≠ [⟨docA, 1⟩, ⟨docB, 1⟩] := by
  have hscores : searchScores (fun x => x) [1] [docA, docB] = [⟨docA, 1⟩, ⟨docB, 1⟩] := by
    norm_num [searchScores, cosineSimilarity, docA, docB, List.range_succ, List.range_zero]
  refine ⟨?_, ?_, ?_, ?_, ?_⟩
  · rw [hscores]
    exact List.Perm.swap _ _ _
  · rw [hscores]
    norm_num [List.pairwise_cons]
  · unfold search
    rw [hscores]
    norm_num
  · rw [hscores]
    norm_num [specStableSortDesc, insertDesc]
  · decide

/-- C3 amended: for every query vector, corpus and cap `K ≥ 0`, and every
sorting function satisfying the `sort.Slice` contract on the scored list (a
permutation of it that is sorted by descending score), `Search` succeeds and
returns exactly the first `K` entries of that sorted permutation: a list
sorted by descending score, of length `min(#qualifying, K)`, consisting of
qualifying (document, score) pairs, which together with the dropped
qualifying pairs forms a permutation of all qualifying pairs while every
dropped pair scores no higher than every kept pair (the kept entries are
the `K` highest-scoring ones), and which is a permutation of all qualifying
pairs when at most `K` qualify; the order of tied entries is whatever the
sorting function produced, since the Go sort is not guaranteed stable. -/
theorem search_topk_sorted (sqrtF : ℚ → ℚ)
    (sortImpl : List SearchResult → List SearchResult)
    (docs : List Document) (q : List ℚ) (K : Int)
    (hne : docs ≠ []) (hK : 0 ≤ K)
    (hperm : (sortImpl (searchScores sqrtF q docs)).Perm (searchScores sqrtF q docs))
    (hsorted : List.Pairwise (fun x y => y.score ≤ x.score)
      (sortImpl (searchScores sqrtF q docs))) :
    ∃ out, search sqrtF sortImpl docs q K = .ok out ∧
      out = (sortImpl (searchScores sqrtF q docs)).take K.toNat ∧
      List.Pairwise (fun x y => y.score ≤ x.score) out ∧
      out.Subperm (searchScores sqrtF q docs) ∧
      out.length = min (searchScores sqrtF q docs).length K.toNat ∧
      (∃ rest, (out ++ rest).Perm (searchScores sqrtF q docs) ∧
        ∀ x ∈ out, ∀ y ∈ rest, y.score ≤ x.score) ∧
      ((searchScores sqrtF q docs).length ≤ K.toNat →
        out.Perm (searchScores sqrtF q docs)) := by
  have hlen : ¬ docs.length = 0 := by simpa [List.length_eq_zero] using hne
  have hlenres := hperm.length_eq
  unfold search
  rw [if_neg hlen]
  set res := sortImpl (searchScores sqrtF q docs) with hres
  have hsplit : ∀ x ∈ res.take K.toNat, ∀ y ∈ res.drop K.toNat, y.score ≤ x.score := by
    have h := hsorted
    rw [← List.take_append_drop K.toNat res] at h
    exact (List.pairwise_append.mp h).2.2
  have htopk : ∃ rest, ((res.take K.toNat) ++ rest).Perm (searchScores sqrtF q docs) ∧
      ∀ x ∈ res.take K.toNat, ∀ y ∈ rest, y.score ≤ x.score := by
    refine ⟨res.drop K.toNat, ?_, hsplit⟩
    rw [List.take_append_drop]
    exact hperm
  by_cases htr : (res.length : Int) > K
  · rw [if_pos htr]
    have hcond : 0 ≤ K ∧ K ≤ (res.length : Int) := ⟨hK, le_of_lt htr⟩
    refine ⟨res.take K.toNat, ?_, rfl, ?_, ?_, ?_, htopk, ?_⟩
    · rw [goSliceTo, if_pos hcond]
    · exact List.Pairwise.sublist (List.take_sublist _ _) hsorted
    · exact ((List.take_sublist _ _).subperm).trans hperm.subperm
    · rw [List.length_take]
      omega
    · intro hle
      exfalso
      omega
  · rw [if_neg htr]
    have hfull : res.take K.toNat = res := List.take_of_length_le (by omega)
    refine ⟨res.take K.toNat, ?_, rfl, ?_, ?_, ?_, htopk, ?_⟩
    · rw [hfull]
    · rw [hfull]; exact hsorted
    · rw [hfull]; exact hperm.subperm
    · rw [List.length_take]
      omega
    · intro _
      rw [hfull]
      exact hperm

/-- C3 witness: the amended theorem applied to the corpus `[docA, docB]`
with the identity as (trivially contract-satisfying) sorting function. -/
theorem search_topk_sorted_witness :
    ∃ out, search (fun x => x) (fun l => l) [docA, docB] [(1 : ℚ)] 1 = .ok out ∧
      out = ((fun l => l) (searchScores (fun x => x) [(1 : ℚ)] [docA, docB])).take
        (Int.toNat 1) ∧
      List.Pairwise (fun x y => y.score ≤ x.score) out ∧
      out.Subperm (searchScores (fun x => x) [(1 : ℚ)] [docA, docB]) ∧
      out.length = min (searchScores (fun x => x) [(1 : ℚ)] [docA, docB]).length
        (Int.toNat 1) ∧
      (∃ rest, (out ++ rest).Perm (searchScores (fun x => x) [(1 : ℚ)] [docA, docB]) ∧
        ∀ x ∈ out, ∀ y ∈ rest, y.score ≤ x.score) ∧
      ((searchScores (fun x => x) [(1 : ℚ)] [docA, docB]).length ≤ Int.toNat 1 →
        out.Perm (searchScores (fun x => x) [(1 : ℚ)] [docA, docB])) :=
  search_topk_sorted (fun x => x) (fun l => l) [docA, docB] [(1 : ℚ)] 1
    (by decide) (by decide) (List.Perm.refl _)
    (by norm_num [searchScores, cosineSimilarity, docA, docB, List.range_succ,
          List.range_zero, List.pairwise_cons])

/-- A fold that adds componentwise equals the initial value plus the sums of
the mapped lists (shape of the accumulation loop in `cosineSimilarity`). -/
theorem foldl_triple_add (f g h : ℕ → ℚ) :
    ∀ (l : List ℕ) (c : ℚ × ℚ × ℚ),
      l.foldl (fun acc i => (acc.1 + f i, acc.2.1 + g i, acc.2.2 + h i)) c =
        (c.1 + (l.map f).sum, c.2.1 + (l.map g).sum, c.2.2 + (l.map h).sum) := by
  intro l
  induction l with
  | nil => intro c; simp
  | cons i is ih =>
    intro c
    simp [List.foldl_cons, ih, add_assoc]

/-- Summing an index loop over two equal-length lists equals summing their
zip (relates the Go index loop to the mathematical formulation). -/
theorem sum_range_zip (f : ℚ → ℚ → ℚ) :
    ∀ (n : ℕ) (a b : List ℚ), a.length = n → b.length = n →
      ((List.range n).map (fun i => f (a.getD i 0) (b.getD i 0))).sum =
        (List.zipWith f a b).sum := by
  intro n
  induction n with
  | zero =>
    intro a b ha hb
    rw [List.length_eq_zero] at ha hb
    subst ha; subst hb
    simp
  | succ m ih =>
    intro a b ha hb
    cases a with
    | nil => simp at ha
    | cons x xs =>
      cases b with
      | nil => simp at hb
      | cons y ys =>
        have ha2 : xs.length = m := by simpa using ha
        have hb2 : ys.length = m := by simpa using hb
        rw [List.range_succ_eq_map, List.map_cons, List.map_map, List.sum_cons,
          List.zipWith_cons_cons, List.sum_cons]
        have : (List.map ((fun i => f ((x :: xs).getD i 0) ((y :: ys).getD i 0)) ∘ Nat.succ)
            (List.range m)).sum = (List.zipWith f xs ys).sum := by
          rw [← ih xs ys ha2 hb2]
          congr 1
        simp only [List.getD_cons_zero] at *
        rw [← this]

/-- C5: `cosineSimilarity` on equal-length vectors returns
`dot(a,b) / (sqrt(Σ aᵢ²) · sqrt(Σ bᵢ²))` and exactly `0` (with no error) when
either squared magnitude is exactly `0`; on vectors of different lengths it
returns an error; and `Search` treats that error as a per-document skip: a
document with an empty or length-mismatched embedding contributes nothing to
the scored list, wherever it sits in the corpus.  (`float` arithmetic is
modelled exactly on `ℚ` and `math.Sqrt` by the oracle `sqrtF`, so
`sqrtF (Σ aᵢ²)` stands for the computed magnitude `‖a‖`.) -/
theorem cosineSimilarity_spec (sqrtF : ℚ → ℚ) :
    (∀ a b : List ℚ, a.length = b.length →
      cosineSimilarity sqrtF a b =
        .ok (if (a.map (fun x => x * x)).sum = 0 ∨ (b.map (fun x => x * x)).sum = 0
             then 0
             else (List.zipWith (fun x y => x * y) a b).sum /
               (sqrtF (a.map (fun x => x * x)).sum * sqrtF (b.map (fun x => x * x)).sum))) ∧
    (∀ a b : List ℚ, a.length ≠ b.length →
      cosineSimilarity sqrtF a b = .error "vectors must have the same length") ∧
    (∀ (q : List ℚ) (docs1 docs2 : List Document) (d : Document),
      d.embeddings = [] ∨ d.embeddings.length ≠ q.length →
      searchScores sqrtF q (docs1 ++ d :: docs2) = searchScores sqrtF q (docs1 ++ docs2)) := by
  refine ⟨?_, ?_, ?_⟩
  · intro a b h
    have hnot : ¬ a.length ≠ b.length := not_not_intro h
    unfold cosineSimilarity
    rw [if_neg hnot]
    rw [foldl_triple_add (fun i => a.getD i 0 * b.getD i 0)
      (fun i => a.getD i 0 * a.getD i 0) (fun i => b.getD i 0 * b.getD i 0)]
    rw [sum_range_zip (fun x y => x * y) a.length a b rfl h.symm]
    rw [sum_range_zip (fun x y => x * y) a.length a a rfl rfl]
    rw [sum_range_zip (fun x y => x * y) a.length b b h.symm h.symm]
    rw [List.zipWith_same, List.zipWith_same]
    simp only [zero_add]
    rw [apply_ite (Except.ok : ℚ → Except String ℚ)]
  · intro a b h
    unfold cosineSimilarity
    rw [if_pos h]
  · intro q docs1 docs2 d hskip
    induction docs1 with
    | nil =>
      simp only [List.nil_append]
      rcases hskip with he | hl
      · have hz : d.embeddings.length = 0 := by simp [he]
        simp [searchScores, hz]
      · by_cases hz : d.embeddings.length = 0
        · simp [searchScores, hz]
        · have hq : q.length ≠ d.embeddings.length := fun hc => hl hc.symm
          simp [searchScores, hz, cosineSimilarity, hq]
    | cons e es ih =>
      simp only [List.cons_append]
      by_cases h0 : e.embeddings.length = 0
      · simp [searchScores, h0, ih]
      · cases hc : cosineSimilarity sqrtF q e.embeddings with
        | error m => simp [searchScores, h0, hc, ih]
        | ok s => simp [searchScores, h0, hc, ih]

/-- C5 witness: the specification applied to the concrete vectors `[1]` and
`[2]` (equal length, non-zero magnitudes), to `[1]` against `[1, 2]`
(mismatched lengths), and to a corpus whose middle document has a mismatched
embedding. -/
theorem cosineSimilarity_spec_witness :
    cosineSimilarity (fun x => x) [(1 : ℚ)] [(2 : ℚ)] = .ok (2 / 4) ∧
    cosineSimilarity (fun x => x) [(1 : ℚ)] [(1 : ℚ), 2] =
      .error "vectors must have the same length" ∧
    searchScores (fun x => x) [(1 : ℚ)] [docA, ⟨"m", "", "", "", "", [1, 2], "", ""⟩, docB] =
      searchScores (fun x => x) [(1 : ℚ)] [docA, docB] := by
  refine ⟨?_, ?_, ?_⟩
  · have h := (cosineSimilarity_spec (fun x => x)).1 [(1 : ℚ)] [(2 : ℚ)] rfl
    rw [h]
    norm_num
  · exact (cosineSimilarity_spec (fun x => x)).2.1 [(1 : ℚ)] [(1 : ℚ), 2] (by decide)
  · exact (cosineSimilarity_spec (fun x => x)).2.2 [(1 : ℚ)] [docA]
      [docB] ⟨"m", "", "", "", "", [1, 2], "", ""⟩ (Or.inr (by decide))

/-- The `href` fold of `extractLinks` with an arbitrary accumulator equals
the accumulator followed by the filtered resolutions of the `href` values. -/
theorem anchorLinks_go (resolve : GoURL → String → Option GoURL) (base : GoURL)
    (visited : List String) :
    ∀ (attrs : List (String × String)) (acc : List GoURL),
      attrs.foldl (fun acc attr =>
        if attr.1 = "href" then
          match resolve base attr.2 with
          | none => acc
          | some r => if r.host = base.host ∧ r.str ∉ visited then acc ++ [r] else acc
        else acc) acc =
      acc ++ (((hrefValues attrs).filterMap (fun s => resolve base s)).filter
        (fun r => decide (r.host = base.host ∧ r.str ∉ visited))) := by
  intro attrs
  induction attrs with
  | nil => intro acc; simp [hrefValues]
  | cons a as ih =>
    intro acc
    by_cases ha : a.1 = "href"
    · cases hr : resolve base a.2 with
      | none =>
        simp only [List.foldl_cons, ha, if_true, hr]
        rw [ih]
        simp [hrefValues, ha, hr]
      | some r =>
        by_cases hcond : r.host = base.host ∧ r.str ∉ visited
        · simp only [List.foldl_cons, ha, if_true, hr, if_pos hcond]
          rw [ih]
          simp [hrefValues, ha, hr, hcond]
        · simp only [List.foldl_cons, ha, if_true, hr, if_neg hcond]
          rw [ih]
          simp [hrefValues, ha, hr, hcond]
    · simp only [List.foldl_cons, ha, if_false]
      rw [ih]
      simp [hrefValues, ha]

/-- `anchorLinks` is the filtered resolution of the `href` values. -/
theorem anchorLinks_eq (resolve : GoURL → String → Option GoURL) (base : GoURL)
    (visited : List String) (attrs : List (String × String)) :
    anchorLinks resolve base visited attrs =
      ((hrefValues attrs).filterMap (fun s => resolve base s)).filter
        (fun r => decide (r.host = base.host ∧ r.str ∉ visited)) := by
  have h := anchorLinks_go resolve base visited attrs []
  simpa [anchorLinks] using h

mutual

/-- `extractLinks` computes exactly the specification-side `specLinks`. -/
theorem extractLinks_eq_spec (resolve : GoURL → String → Option GoURL) (base : GoURL)
    (visited : List String) :
    ∀ n : HtmlNode, extractLinks resolve base visited n = specLinks resolve base visited n
  | .node ty data attrs children => by
    rw [extractLinks, specLinks, preorderList]
    rw [List.flatMap_cons, List.filterMap_append, List.filter_append]
    rw [extractLinksList_eq_spec resolve base visited children]
    congr 1
    by_cases hc : ty = NodeType.element ∧ data = "a"
    · simp only [HtmlNode.tyOf, HtmlNode.dataOf, HtmlNode.attrsOf, hc, if_true, if_pos hc]
      exact anchorLinks_eq resolve base visited attrs
    · simp only [HtmlNode.tyOf, HtmlNode.dataOf, HtmlNode.attrsOf]
      rw [if_neg hc, if_neg hc]
      simp

/-- Forest version of `extractLinks_eq_spec`. -/
theorem extractLinksList_eq_spec (resolve : GoURL → String → Option GoURL) (base : GoURL)
    (visited : List String) :
    ∀ l : List HtmlNode,
      extractLinksList resolve base visited l =
        (((preorderListForest l).flatMap
            (fun n => if n.tyOf = NodeType.element ∧ n.dataOf = "a" then hrefValues n.attrsOf
                      else [])).filterMap (fun s => resolve base s)).filter
          (fun r => decide (r.host = base.host ∧ r.str ∉ visited))
  | [] => by
    rw [extractLinksList, preorderListForest]
    simp
  | c :: cs => by
    rw [extractLinksList, preorderListForest]
    rw [List.flatMap_append, List.filterMap_append, List.filter_append]
    rw [extractLinks_eq_spec resolve base visited c,
      extractLinksList_eq_spec resolve base visited cs]
    rfl

end

/-- Depth exceeded (`fuel = 0`): Crawl returns without touching the state. -/
theorem crawl_zero (fetch : String → Option Page) (resolve : GoURL → String → Option GoURL)
    (base : GoURL) (cur : GoURL) (st : CrawlState) :
    crawl fetch resolve base 0 cur st = (st, true) := rfl

/-- Already visited: Crawl returns without touching the state. -/
theorem crawl_visited_mem (fetch : String → Option Page)
    (resolve : GoURL → String → Option GoURL) (base : GoURL) (n : Nat) (cur : GoURL)
    (st : CrawlState) (hv : cur.str ∈ st.visited) :
    crawl fetch resolve base (n + 1) cur st = (st, true) := by
  simp [crawl, hv]

/-- Unfolding of Crawl on a fresh URL: mark it visited, attempt the fetch,
and on success record the page and recurse over the extracted links. -/
theorem crawl_succ_new (fetch : String → Option Page)
    (resolve : GoURL → String → Option GoURL) (base : GoURL) (n : Nat) (cur : GoURL)
    (st : CrawlState) (hv : cur.str ∉ st.visited) :
    crawl fetch resolve base (n + 1) cur st =
      match fetch cur.str with
      | none =>
        ({ st with visited := st.visited ++ [cur.str], fetchLog := st.fetchLog ++ [cur] },
          false)
      | some page =>
        ((extractLinks resolve base (st.visited ++ [cur.str]) page.doc).foldl
            (fun acc l => (crawl fetch resolve base n l acc).1)
            { st with visited := st.visited ++ [cur.str]
                      fetchLog := st.fetchLog ++ [cur]
                      pathsSet := insertKey st.pathsSet (normPath cur.path)
                      content := (normPath cur.path, page.body) :: st.content
                      recorded := st.recorded ++ [cur] }, true) := by
  simp only [crawl]
  rw [if_neg hv]

/-- The child loop at exhausted fuel leaves the state unchanged. -/
theorem crawlFold_zero (fetch : String → Option Page)
    (resolve : GoURL → String → Option GoURL) (base : GoURL) :
    ∀ (links : List GoURL) (st : CrawlState),
      links.foldl (fun acc l => (crawl fetch resolve base 0 l acc).1) st = st := by
  intro links
  induction links with
  | nil => intro st; rfl
  | cons l ls ih =>
    intro st
    rw [List.foldl_cons, crawl_zero]
    exact ih st

/-- Every link `extractLinks` returns has the base host and was unvisited. -/
theorem extractLinks_host (resolve : GoURL → String → Option GoURL) (base : GoURL)
    (visited : List String) (n : HtmlNode) :
    ∀ l ∈ extractLinks resolve base visited n, l.host = base.host ∧ l.str ∉ visited := by
  rw [extractLinks_eq_spec]
  intro l hl
  have hp := (List.mem_filter.mp hl).2
  exact of_decide_eq_true hp

/-- The visited set only grows during a crawl (with any fuel and state). -/
theorem crawl_visited_extend (fetch : String → Option Page)
    (resolve : GoURL → String → Option GoURL) (base : GoURL) :
    ∀ (fuel : Nat) (cur : GoURL) (st : CrawlState),
      ∃ t, ((crawl fetch resolve base fuel cur st).1).visited = st.visited ++ t := by
  intro fuel
  induction fuel with
  | zero =>
    intro cur st
    exact ⟨[], by simp [crawl_zero]⟩
  | succ n ih =>
    have fold : ∀ (links : List GoURL) (st : CrawlState),
        ∃ t, ((links.foldl (fun acc l => (crawl fetch resolve base n l acc).1) st)).visited
          = st.visited ++ t := by
      intro links
      induction links with
      | nil => intro st; exact ⟨[], by simp⟩
      | cons l ls ihl =>
        intro st
        obtain ⟨t1, h1⟩ := ih l st
        obtain ⟨t2, h2⟩ := ihl ((crawl fetch resolve base n l st).1)
        refine ⟨t1 ++ t2, ?_⟩
        rw [List.foldl_cons, h2, h1, List.append_assoc]
    intro cur st
    by_cases hv : cur.str ∈ st.visited
    · exact ⟨[], by rw [crawl_visited_mem fetch resolve base n cur st hv]; simp⟩
    · rw [crawl_succ_new fetch resolve base n cur st hv]
      cases hf : fetch cur.str with
      | none => exact ⟨[cur.str], rfl⟩
      | some page =>
        obtain ⟨t, ht⟩ := fold
          (extractLinks resolve base (st.visited ++ [cur.str]) page.doc)
          { st with visited := st.visited ++ [cur.str]
                    fetchLog := st.fetchLog ++ [cur]
                    pathsSet := insertKey st.pathsSet (normPath cur.path)
                    content := (normPath cur.path, page.body) :: st.content
                    recorded := st.recorded ++ [cur] }
        refine ⟨[cur.str] ++ t, ?_⟩
        simpa [List.append_assoc] using ht

/-- The child loop only grows the visited set. -/
theorem crawlFold_visited_extend (fetch : String → Option Page)
    (resolve : GoURL → String → Option GoURL) (base : GoURL) (fuel : Nat) :
    ∀ (links : List GoURL) (st : CrawlState),
      ∃ t, ((links.foldl (fun acc l => (crawl fetch resolve base fuel l acc).1) st)).visited
        = st.visited ++ t := by
  intro links
  induction links with
  | nil => intro st; exact ⟨[], by simp⟩
  | cons l ls ihl =>
    intro st
    obtain ⟨t1, h1⟩ := crawl_visited_extend fetch resolve base fuel l st
    obtain ⟨t2, h2⟩ := ihl ((crawl fetch resolve base fuel l st).1)
    refine ⟨t1 ++ t2, ?_⟩
    rw [List.foldl_cons, h2, h1, List.append_assoc]

/-- With fuel left, the current URL ends up visited. -/
theorem crawl_marks (fetch : String → Option Page)
    (resolve : GoURL → String → Option GoURL) (base : GoURL) (n : Nat) (cur : GoURL)
    (st : CrawlState) :
    cur.str ∈ ((crawl fetch resolve base (n + 1) cur st).1).visited := by
  by_cases hv : cur.str ∈ st.visited
  · rw [crawl_visited_mem fetch resolve base n cur st hv]
    exact hv
  · rw [crawl_succ_new fetch resolve base n cur st hv]
    cases hf : fetch cur.str with
    | none => simp
    | some page =>
      obtain ⟨t, ht⟩ := crawlFold_visited_extend fetch resolve base n
        (extractLinks resolve base (st.visited ++ [cur.str]) page.doc)
        { st with visited := st.visited ++ [cur.str]
                  fetchLog := st.fetchLog ++ [cur]
                  pathsSet := insertKey st.pathsSet (normPath cur.path)
                  content := (normPath cur.path, page.body) :: st.content
                  recorded := st.recorded ++ [cur] }
    -- membership through the extension
      simp only [ht]
      simp

/-- Crawl reports an error exactly when it actually fetched the current URL
(fuel left, not yet visited) and that fetch failed; child errors never
propagate. -/
theorem crawl_err_iff (fetch : String → Option Page)
    (resolve : GoURL → String → Option GoURL) (base : GoURL) (fuel : Nat) (cur : GoURL)
    (st : CrawlState) :
    (crawl fetch resolve base fuel cur st).2 = false ↔
      fuel ≠ 0 ∧ cur.str ∉ st.visited ∧ fetch cur.str = none := by
  cases fuel with
  | zero => simp [crawl_zero]
  | succ n =>
    by_cases hv : cur.str ∈ st.visited
    · rw [crawl_visited_mem fetch resolve base n cur st hv]
      simp [hv]
    · rw [crawl_succ_new fetch resolve base n cur st hv]
      cases hf : fetch cur.str with
      | none => simp [hv, hf]
      | some page => simp [hv, hf]

/-- Crawl preserves the visitation invariant: the fetch-attempt log (as URL
strings) is exactly the visited list, and the visited list has no
duplicates.  Both are appended to in lock step, only for fresh URLs. -/
theorem crawl_preserves_inv (fetch : String → Option Page)
    (resolve : GoURL → String → Option GoURL) (base : GoURL) :
    ∀ (fuel : Nat) (cur : GoURL) (st : CrawlState),
      st.fetchLog.map GoURL.str = st.visited → st.visited.Nodup →
      ((crawl fetch resolve base fuel cur st).1.fetchLog.map GoURL.str =
          (crawl fetch resolve base fuel cur st).1.visited ∧
        (crawl fetch resolve base fuel cur st).1.visited.Nodup) := by
  intro fuel
  induction fuel with
  | zero =>
    intro cur st h1 h2
    rw [crawl_zero]
    exact ⟨h1, h2⟩
  | succ n ih =>
    have fold : ∀ (links : List GoURL) (st : CrawlState),
        st.fetchLog.map GoURL.str = st.visited → st.visited.Nodup →
        (((links.foldl (fun acc l => (crawl fetch resolve base n l acc).1) st)).fetchLog.map
            GoURL.str =
          ((links.foldl (fun acc l => (crawl fetch resolve base n l acc).1) st)).visited ∧
          ((links.foldl (fun acc l => (crawl fetch resolve base n l acc).1) st)).visited.Nodup) := by
      intro links
      induction links with
      | nil => intro st h1 h2; exact ⟨h1, h2⟩
      | cons l ls ihl =>
        intro st h1 h2
        obtain ⟨g1, g2⟩ := ih l st h1 h2
        exact ihl ((crawl fetch resolve base n l st).1) g1 g2
    intro cur st h1 h2
    by_cases hv : cur.str ∈ st.visited
    · rw [crawl_visited_mem fetch resolve base n cur st hv]
      exact ⟨h1, h2⟩
    · rw [crawl_succ_new fetch resolve base n cur st hv]
      cases hf : fetch cur.str with
      | none =>
        constructor
        · simp [h1]
        · simp [List.nodup_append, h2, hv]
      | some page =>
        apply fold
        · simp [h1]
        · simp [List.nodup_append, h2, hv]

/-- Crawl preserves the same-host invariant: when the current URL has the
base host and all previously logged URLs do too, every URL whose fetch is
attempted (and so every recorded page) still has the base host, because
`extractLinks` filters links to the base host. -/
theorem crawl_preserves_host (fetch : String → Option Page)
    (resolve : GoURL → String → Option GoURL) (base : GoURL) :
    ∀ (fuel : Nat) (cur : GoURL) (st : CrawlState),
      cur.host = base.host →
      (∀ u ∈ st.fetchLog, u.host = base.host) →
      (∀ u ∈ st.recorded, u.host = base.host) →
      ((∀ u ∈ (crawl fetch resolve base fuel cur st).1.fetchLog, u.host = base.host) ∧
        (∀ u ∈ (crawl fetch resolve base fuel cur st).1.recorded, u.host = base.host)) := by
  intro fuel
  induction fuel with
  | zero =>
    intro cur st _ h1 h2
    rw [crawl_zero]
    exact ⟨h1, h2⟩
  | succ n ih =>
    have fold : ∀ (links : List GoURL) (st : CrawlState),
        (∀ l ∈ links, l.host = base.host) →
        (∀ u ∈ st.fetchLog, u.host = base.host) →
        (∀ u ∈ st.recorded, u.host = base.host) →
        ((∀ u ∈ ((links.foldl (fun acc l => (crawl fetch resolve base n l acc).1) st)).fetchLog,
            u.host = base.host) ∧
          (∀ u ∈ ((links.foldl (fun acc l => (crawl fetch resolve base n l acc).1) st)).recorded,
            u.host = base.host)) := by
      intro links
      induction links with
      | nil => intro st _ h1 h2; exact ⟨h1, h2⟩
      | cons l ls ihl =>
        intro st hl h1 h2
        obtain ⟨g1, g2⟩ := ih l st (hl l (List.mem_cons_self l ls)) h1 h2
        exact ihl ((crawl fetch resolve base n l st).1)
          (fun x hx => hl x (List.mem_cons_of_mem l hx)) g1 g2
    intro cur st hcur h1 h2
    by_cases hv : cur.str ∈ st.visited
    · rw [crawl_visited_mem fetch resolve base n cur st hv]
      exact ⟨h1, h2⟩
    · rw [crawl_succ_new fetch resolve base n cur st hv]
      cases hf : fetch cur.str with
      | none =>
        constructor
        · intro u hu
          rcases List.mem_append.mp hu with h | h
          · exact h1 u h
          · rw [List.mem_singleton.mp h]; exact hcur
        · exact h2
      | some page =>
        apply fold
        · intro l hl
          exact (extractLinks_host resolve base (st.visited ++ [cur.str]) page.doc l hl).1
        · intro u hu
          rcases List.mem_append.mp hu with h | h
          · exact h1 u h
          · rw [List.mem_singleton.mp h]; exact hcur
        · intro u hu
          rcases List.mem_append.mp hu with h | h
          · exact h2 u h
          · rw [List.mem_singleton.mp h]; exact hcur

/-- Every link in a child list ends up visited after the child loop runs with
fuel left, no matter whether earlier siblings failed. -/
theorem crawlFold_marks (fetch : String → Option Page)
    (resolve : GoURL → String → Option GoURL) (base : GoURL) (n : Nat) :
    ∀ (links : List GoURL) (st : CrawlState) (l : GoURL), l ∈ links →
      l.str ∈ ((links.foldl (fun acc x => (crawl fetch resolve base (n + 1) x acc).1) st)).visited := by
  intro links
  induction links with
  | nil => intro st l hl; exact absurd hl (List.not_mem_nil l)
  | cons x xs ihl =>
    intro st l hl
    rw [List.foldl_cons]
    rcases List.mem_cons.mp hl with h | h
    · subst h
      obtain ⟨t, ht⟩ := crawlFold_visited_extend fetch resolve base (n + 1) xs
        ((crawl fetch resolve base (n + 1) l st).1)
      rw [ht]
      exact List.mem_append_left t (crawl_marks fetch resolve base n l st)
    · exact ihl ((crawl fetch resolve base (n + 1) x st).1) l h

/-- C1: with `MaxDepth = 0` (fuel `1`) and a seed whose fetch succeeds,
`GetAllPaths` attempts exactly one fetch — the seed — and records exactly the
seed page (its normalised path and body), regardless of how many links the
seed page contains: every link is handed to a recursive call at depth `1`,
which exceeds `MaxDepth` and returns before fetching or marking anything. -/
theorem getAllPaths_maxdepth_zero_only_seed (parse : String → Option GoURL)
    (fetch : String → Option Page) (resolve : GoURL → String → Option GoURL)
    (seedURL : String) (seed : GoURL) (page : Page)
    (hparse : parse seedURL = some seed) (hfetch : fetch seed.str = some page) :
    getAllPaths parse fetch resolve 0 seedURL =
      some ⟨[seed.str], [normPath seed.path], [(normPath seed.path, page.body)],
        [seed], [seed]⟩ := by
  have hv : seed.str ∉ initCrawlState.visited := by simp [initCrawlState]
  simp only [getAllPaths, hparse]
  have h1 : ((0 : Int) + 1).toNat = 1 := rfl
  rw [h1]
  rw [show (1 : Nat) = 0 + 1 from rfl]
  rw [crawl_succ_new fetch resolve seed 0 seed initCrawlState hv, hfetch]
  simp [crawlFold_zero, initCrawlState, insertKey]

/-- C1 witness: the concrete crawl of the example seed whose page links to
`/a` and `/b`: only the seed is fetched and recorded. -/
theorem getAllPaths_maxdepth_zero_only_seed_witness :
    getAllPaths exParse exFetchSeedOnly exResolve 0 "http://h/" =
      some ⟨[seedGoURL.str], [normPath seedGoURL.path],
        [(normPath seedGoURL.path, seedPage.body)], [seedGoURL], [seedGoURL]⟩ :=
  getAllPaths_maxdepth_zero_only_seed exParse exFetchSeedOnly exResolve
    "http://h/" seedGoURL seedPage rfl rfl

/-- C2 amended: `GetAllPaths` returns an error exactly when the seed URL is
unparsable, or when `MaxDepth ≥ 0` and the fetch of the seed page itself
fails (the Go code propagates the top-level Crawl error, so a seed fetch
failure is fatal, contrary to the original claim); every other fetch failure
is absorbed: a crawl whose current fetch succeeds returns success whatever
happens in child calls, and every sibling link still gets crawled (ends up
in the visited set) regardless of failures of the links before it. -/
theorem getAllPaths_error_characterisation (parse : String → Option GoURL)
    (fetch : String → Option Page) (resolve : GoURL → String → Option GoURL)
    (maxDepth : Int) (seedURL : String) :
    (getAllPaths parse fetch resolve maxDepth seedURL = none ↔
      parse seedURL = none ∨
        ∃ base, parse seedURL = some base ∧ 0 ≤ maxDepth ∧ fetch base.str = none) ∧
    (∀ (base cur : GoURL) (fuel : Nat) (st : CrawlState) (page : Page),
      fetch cur.str = some page →
      (crawl fetch resolve base fuel cur st).2 = true) ∧
    (∀ (base : GoURL) (fuel : Nat) (links : List GoURL) (st : CrawlState) (l : GoURL),
      l ∈ links →
      l.str ∈
        ((links.foldl (fun acc x => (crawl fetch resolve base (fuel + 1) x acc).1) st)).visited) := by
  refine ⟨?_, ?_, ?_⟩
  · cases hp : parse seedURL with
    | none => simp [getAllPaths, hp]
    | some base =>
      simp only [getAllPaths, hp]
      constructor
      · intro h
        have hfalse : (crawl fetch resolve base (maxDepth + 1).toNat base initCrawlState).2
            = false := by
          by_contra hb
          have : (crawl fetch resolve base (maxDepth + 1).toNat base initCrawlState).2
              = true := by
            cases hcase : (crawl fetch resolve base (maxDepth + 1).toNat base
                initCrawlState).2
            · exact absurd hcase hb
            · rfl
          rw [if_pos this] at h
          exact Option.noConfusion h
        have hiff := (crawl_err_iff fetch resolve base (maxDepth + 1).toNat base
          initCrawlState).mp hfalse
        refine Or.inr ⟨base, rfl, ?_, hiff.2.2⟩
        have := hiff.1
        omega
      · intro h
        rcases h with h | ⟨base2, hb2, hmd, hf⟩
        · exact Option.noConfusion h
        · have hbase : base2 = base := (Option.some_injective _ hb2).symm
          rw [hbase] at hf
          have hfalse : (crawl fetch resolve base (maxDepth + 1).toNat base
              initCrawlState).2 = false := by
            apply (crawl_err_iff fetch resolve base (maxDepth + 1).toNat base
              initCrawlState).mpr
            refine ⟨?_, ?_, hf⟩
            · omega
            · simp [initCrawlState]
          rw [hfalse]
          simp
  · intro base cur fuel st page hf
    cases hb : (crawl fetch resolve base fuel cur st).2
    · have := (crawl_err_iff fetch resolve base fuel cur st).mp hb
      rw [hf] at this
      exact Option.noConfusion this.2.2
    · rfl
  · intro base fuel links st l hl
    exact crawlFold_marks fetch resolve base fuel links st l hl

/-- C2 counterexample: the seed URL parses, yet `GetAllPaths` returns an
error, because the fetch of the seed page fails and the top-level Crawl
error is propagated (`crawling failed: failed to fetch ...`). -/
theorem getAllPaths_seed_fetch_failure_fatal :
    exParse "http://h/" = some seedGoURL ∧
    getAllPaths exParse exFetchNone exResolve 3 "http://h/" = none := by decide

/-- C2 witness: the amended characterisation applied to concrete oracles:
an unparsable seed gives an error; a crawl whose current fetch succeeds
reports success; a sibling link is visited after the child loop. -/
theorem getAllPaths_error_characterisation_witness :
    getAllPaths exParse exFetchNone exResolve 3 "nope" = none ∧
    (crawl exFetchSeedOnly exResolve seedGoURL 2 seedGoURL initCrawlState).2 = true ∧
    seedGoURL.str ∈
      (([seedGoURL].foldl (fun acc x => (crawl exFetchSeedOnly exResolve seedGoURL 1 x acc).1)
        initCrawlState)).visited := by
  refine ⟨?_, ?_, ?_⟩
  · exact (getAllPaths_error_characterisation exParse exFetchNone exResolve 3 "nope").1.mpr
      (Or.inl rfl)
  · exact (getAllPaths_error_characterisation exParse exFetchSeedOnly exResolve 3
      "http://h/").2.1 seedGoURL seedGoURL 2 initCrawlState seedPage rfl
  · exact (getAllPaths_error_characterisation exParse exFetchSeedOnly exResolve 3
      "http://h/").2.2 seedGoURL 0 [seedGoURL] initCrawlState seedGoURL
      (List.mem_singleton.mpr rfl)

/-- C6: during one crawl, the visited set never shrinks (every call only
appends to it), and from the clean state a crawl session starts with, the
fetch-attempt log coincides (as URL strings, in order) with the visited
list, which has no duplicates: every URL is added to the visited set exactly
once, at the moment its fetch is attempted (the Go code marks before
fetching), and a URL already in the visited set is never fetched again. -/
theorem crawl_visited_set_invariants :
    (∀ (fetch : String → Option Page) (resolve : GoURL → String → Option GoURL)
      (base : GoURL) (fuel : Nat) (cur : GoURL) (st : CrawlState),
      ∃ t, ((crawl fetch resolve base fuel cur st).1).visited = st.visited ++ t) ∧
    (∀ (fetch : String → Option Page) (resolve : GoURL → String → Option GoURL)
      (base : GoURL) (fuel : Nat) (cur : GoURL),
      (crawl fetch resolve base fuel cur initCrawlState).1.fetchLog.map GoURL.str =
        (crawl fetch resolve base fuel cur initCrawlState).1.visited ∧
      (crawl fetch resolve base fuel cur initCrawlState).1.visited.Nodup) := by
  constructor
  · intro fetch resolve base fuel cur st
    exact crawl_visited_extend fetch resolve base fuel cur st
  · intro fetch resolve base fuel cur
    exact crawl_preserves_inv fetch resolve base fuel cur initCrawlState rfl List.nodup_nil

/-- C7: `extractLinks` returns exactly the anchor-element link targets that
resolve successfully (parse failures are skipped), have the base host and
are unvisited, in document order; consequently, in a crawl started at the
seed (Go passes the parsed seed as both `baseURL` and `currentURL`), every
URL whose fetch is ever attempted — in particular every recorded page — has
the seed host. -/
theorem extractLinks_spec_and_host_invariant :
    (∀ (resolve : GoURL → String → Option GoURL) (base : GoURL) (visited : List String)
      (doc : HtmlNode),
      extractLinks resolve base visited doc = specLinks resolve base visited doc) ∧
    (∀ (fetch : String → Option Page) (resolve : GoURL → String → Option GoURL)
      (base : GoURL) (fuel : Nat),
      (∀ u ∈ (crawl fetch resolve base fuel base initCrawlState).1.fetchLog,
        u.host = base.host) ∧
      (∀ u ∈ (crawl fetch resolve base fuel base initCrawlState).1.recorded,
        u.host = base.host)) := by
  constructor
  · intro resolve base visited doc
    exact extractLinks_eq_spec resolve base visited doc
  · intro fetch resolve base fuel
    exact crawl_preserves_host fetch resolve base fuel base initCrawlState rfl
      (by simp [initCrawlState]) (by simp [initCrawlState])

/-- C7 witness: the characterisation evaluated on the example page, and the
host fact applied to a concrete URL in the fetch log of a depth-1 crawl. -/
theorem extractLinks_spec_and_host_invariant_witness :
    extractLinks exResolve seedGoURL ["h/"] seedPage.doc =
      specLinks exResolve seedGoURL ["h/"] seedPage.doc ∧
    (⟨"h", "/a", ""⟩ : GoURL).host = seedGoURL.host := by
  constructor
  · exact extractLinks_spec_and_host_invariant.1 exResolve seedGoURL ["h/"] seedPage.doc
  · exact (extractLinks_spec_and_host_invariant.2 exFetchSeedOnly exResolve seedGoURL 2).1
      ⟨"h", "/a", ""⟩ (by decide)

/-- Removing spaces distributes over string append. -/
theorem despace_append (a b : String) : despace (a ++ b) = despace a ++ despace b := by
  apply String.ext
  simp [despace, String.data_append, List.filter_append, String.toList]

/-- A single space despaces to the empty string. -/
theorem despace_space : despace " " = "" := rfl

/-- Removing spaces distributes over `String.join` of appended lists. -/
theorem despace_join_append (l1 l2 : List String) :
    despace (String.join (l1 ++ l2)) =
      despace (String.join l1) ++ despace (String.join l2) := by
  apply String.ext
  simp [despace, String.join_eq, List.map_append, List.flatten_append,
    List.filter_append, String.toList]

mutual

/-- The candidate pass of `findMainContentNode` finds the first pre-order
node whose tag is `main`/`article` or whose `id` is `content`/`main`. -/
theorem findCandidate_eq : ∀ n : HtmlNode,
    findCandidate n = (preorderList n).find? (fun m => isMainTag m || hasMainId m)
  | .node ty data attrs children => by
    rw [findCandidate, preorderList, List.find?_cons]
    by_cases h1 : isMainTag (.node ty data attrs children)
    · simp [h1]
    · by_cases h2 : hasMainId (.node ty data attrs children)
      · simp [h1, h2]
      · have h1f : isMainTag (.node ty data attrs children) = false :=
          Bool.eq_false_iff.mpr h1
        have h2f : hasMainId (.node ty data attrs children) = false :=
          Bool.eq_false_iff.mpr h2
        simp only [h1f, h2f, Bool.or_false, if_false]
        exact findCandidateList_eq children

/-- Forest version of `findCandidate_eq`. -/
theorem findCandidateList_eq : ∀ l : List HtmlNode,
    findCandidateList l = (preorderListForest l).find? (fun m => isMainTag m || hasMainId m)
  | [] => by rw [findCandidateList, preorderListForest]; rfl
  | c :: cs => by
    rw [findCandidateList, preorderListForest, List.find?_append,
      ← findCandidate_eq c, ← findCandidateList_eq cs]
    cases findCandidate c <;> rfl

end

mutual

/-- The fallback pass of `findMainContentNode` finds the first pre-order
`body` element. -/
theorem findBody_eq : ∀ n : HtmlNode,
    findBody n = (preorderList n).find? isBodyTag
  | .node ty data attrs children => by
    rw [findBody, preorderList, List.find?_cons]
    by_cases h1 : isBodyTag (.node ty data attrs children)
    · simp [h1]
    · have h1f : isBodyTag (.node ty data attrs children) = false :=
        Bool.eq_false_iff.mpr h1
      simp only [h1f, if_false]
      exact findBodyList_eq children

/-- Forest version of `findBody_eq`. -/
theorem findBodyList_eq : ∀ l : List HtmlNode,
    findBodyList l = (preorderListForest l).find? isBodyTag
  | [] => by rw [findBodyList, preorderListForest]; rfl
  | c :: cs => by
    rw [findBodyList, preorderListForest, List.find?_append,
      ← findBody_eq c, ← findBodyList_eq cs]
    cases findBody c <;> rfl

end

mutual

/-- Up to space placement, `extractText` is the concatenation of the text
node data outside `script`/`style` subtrees, in document order. -/
theorem extractText_despace : ∀ n : HtmlNode,
    despace (extractText n) = despace (String.join (collectTexts n))
  | .node ty data attrs children => by
    rw [extractText, collectTexts]
    by_cases ht : ty = NodeType.text
    · rw [if_pos ht, if_pos ht]
      apply String.ext
      simp [despace, String.join_eq, String.toList]
    · rw [if_neg ht, if_neg ht]
      by_cases hs : ty = NodeType.element ∧ (data = "script" ∨ data = "style")
      · rw [if_pos hs, if_pos hs]
        rfl
      · rw [if_neg hs, if_neg hs]
        exact extractTextList_despace children

/-- Forest version of `extractText_despace`. -/
theorem extractTextList_despace : ∀ l : List HtmlNode,
    despace (extractTextList l) = despace (String.join (collectTextsForest l))
  | [] => by
    rw [extractTextList, collectTextsForest]
    rfl
  | c :: cs => by
    rw [extractTextList, collectTextsForest, despace_join_append]
    rw [despace_append, despace_append, despace_space, String.append_empty]
    rw [extractText_despace c, extractTextList_despace cs]

end

/-- C8 counterexample: the claimed priority (a `main`/`article` tag anywhere
beats an `id="content"` node) does not hold: the Go code makes one combined
pre-order pass, so in a document whose `div id="content"` precedes the
`main` element, `findMainContentNode` selects the `div`, while the claimed
priority (computed by `specFindMainPerClaim`, modelled from the claim)
selects `main`. -/
theorem findMainContentNode_priority_counterexample :
    (findMainContentNode exPriorityTree).map HtmlNode.dataOf = some "div" ∧
    (specFindMainPerClaim exPriorityTree).map HtmlNode.dataOf = some "main" ∧
    (some "div" : Option String) ≠ some "main" := by decide

/-- C8 amended: `findMainContentNode` selects the first node of a single
pre-order pass whose tag is `main`/`article` or whose `id` attribute equals
`content`/`main` (the two conditions are checked per node, not in two
separate passes); only if no such node exists, the first `body` element; and
`none` when neither exists (ScrapeContent then errors instead of using the
whole tree).  From the chosen node, `extractText` yields each text node
datum followed by one space per child hop — so separators can be several
spaces and the result can end in a space — and, with all spaces removed, it
equals the concatenation of all descendant text node data in document order
with `script`/`style` subtrees excluded entirely. -/
theorem findMainContentNode_and_extractText_spec :
    (∀ doc : HtmlNode,
      findMainContentNode doc =
        ((preorderList doc).find? (fun m => isMainTag m || hasMainId m)).or
          ((preorderList doc).find? isBodyTag)) ∧
    (∀ n : HtmlNode, despace (extractText n) = despace (String.join (collectTexts n))) := by
  constructor
  · intro doc
    rw [findMainContentNode, findCandidate_eq doc, findBody_eq doc]
    cases (preorderList doc).find? (fun m => isMainTag m || hasMainId m) <;> rfl
  · exact extractText_despace

mutual

/-- On trees whose `title` elements all have a first child with non-empty
`Data`, `extractTitle` returns the first-child `Data` of the first pre-order
`title` element. -/
theorem extractTitle_eq_first : ∀ n : HtmlNode,
    (∀ m ∈ preorderList n, isTitleElem m = true →
      isTitleWithChild m = true ∧ (m.childrenOf.headD HtmlNode.dummy).dataOf ≠ "") →
    extractTitle n = firstTitleData n
  | .node ty data attrs children => fun h => by
    rw [extractTitle, firstTitleData, preorderList, List.find?_cons]
    by_cases hc : isTitleWithChild (.node ty data attrs children)
    · have helem : isTitleElem (.node ty data attrs children) = true := by
        have := hc
        simp only [isTitleWithChild, Bool.and_eq_true] at this
        simp [isTitleElem, this.1.1, this.1.2]
      rw [if_pos hc]
      simp only [helem]
      rfl
    · have helem : isTitleElem (.node ty data attrs children) = false := by
        by_contra hne
        have htrue : isTitleElem (.node ty data attrs children) = true := by
          cases hcase : isTitleElem (.node ty data attrs children)
          · exact absurd hcase hne
          · rfl
        exact hc ((h _ (List.mem_cons_self _ _) htrue).1)
      rw [if_neg hc]
      simp only [helem]
      have hforest := extractTitleList_eq_first children
        (fun m hm hte => h m (List.mem_cons_of_mem _ hm) hte)
      rw [hforest]

/-- Forest version of `extractTitle_eq_first`. -/
theorem extractTitleList_eq_first : ∀ l : List HtmlNode,
    (∀ m ∈ preorderListForest l, isTitleElem m = true →
      isTitleWithChild m = true ∧ (m.childrenOf.headD HtmlNode.dummy).dataOf ≠ "") →
    extractTitleList l =
      (match (preorderListForest l).find? isTitleElem with
       | none => ""
       | some n => (n.childrenOf.headD HtmlNode.dummy).dataOf)
  | [] => fun _ => by rw [extractTitleList, preorderListForest]; rfl
  | c :: cs => fun h => by
    rw [extractTitleList, preorderListForest, List.find?_append]
    have hc := extractTitle_eq_first c
      (fun m hm hte => h m (List.mem_append_left _ hm) hte)
    rw [hc, firstTitleData]
    cases hfc : (preorderList c).find? isTitleElem with
    | some n =>
      have hmem : n ∈ preorderList c := List.mem_of_find?_eq_some hfc
      have hp : isTitleElem n = true := List.find?_some hfc
      have hne := (h n (List.mem_append_left _ hmem) hp).2
      rw [if_pos hne]
      rfl
    | none =>
      rw [if_neg (by simp)]
      have hcs := extractTitleList_eq_first cs
        (fun m hm hte => h m (List.mem_append_right _ hm) hte)
      rw [hcs]
      rfl

end

mutual

/-- On trees whose description `meta` elements all carry non-empty content,
`extractDescription` returns the content of the first pre-order description
`meta` element. -/
theorem extractDescription_eq_first : ∀ n : HtmlNode,
    (∀ m ∈ preorderList n, isDescMeta m = true →
      (metaDescContent m.attrsOf).getD "" ≠ "") →
    extractDescription n = firstDescContent n
  | .node ty data attrs children => fun h => by
    rw [extractDescription, firstDescContent, preorderList, List.find?_cons]
    by_cases hm : ty = NodeType.element ∧ data = "meta"
    · cases hmc : metaDescContent attrs with
      | some c =>
        have hd : isDescMeta (.node ty data attrs children) = true := by
          simp [isDescMeta, HtmlNode.tyOf, HtmlNode.dataOf, HtmlNode.attrsOf,
            hm.1, hm.2, hmc]
        rw [if_pos hm]
        simp only [hd]
        simp [HtmlNode.attrsOf, hmc]
      | none =>
        have hd : isDescMeta (.node ty data attrs children) = false := by
          simp [isDescMeta, HtmlNode.tyOf, HtmlNode.dataOf, HtmlNode.attrsOf, hmc]
        rw [if_pos hm]
        simp only [hd]
        have hforest := extractDescriptionList_eq_first children
          (fun m hmem hdm => h m (List.mem_cons_of_mem _ hmem) hdm)
        rw [hforest]
    · have hd : isDescMeta (.node ty data attrs children) = false := by
        by_cases h1 : ty = NodeType.element
        · by_cases h2 : data = "meta"
          · exact absurd ⟨h1, h2⟩ hm
          · simp [isDescMeta, HtmlNode.tyOf, HtmlNode.dataOf, h2]
        · simp [isDescMeta, HtmlNode.tyOf, HtmlNode.dataOf, h1]
      rw [if_neg hm]
      simp only [hd]
      have hforest := extractDescriptionList_eq_first children
        (fun m hmem hdm => h m (List.mem_cons_of_mem _ hmem) hdm)
      rw [hforest]

/-- Forest version of `extractDescription_eq_first`. -/
theorem extractDescriptionList_eq_first : ∀ l : List HtmlNode,
    (∀ m ∈ preorderListForest l, isDescMeta m = true →
      (metaDescContent m.attrsOf).getD "" ≠ "") →
    extractDescriptionList l =
      (match (preorderListForest l).find? isDescMeta with
       | none => ""
       | some n => (metaDescContent n.attrsOf).getD "")
  | [] => fun _ => by rw [extractDescriptionList, preorderListForest]; rfl
  | c :: cs => fun h => by
    rw [extractDescriptionList, preorderListForest, List.find?_append]
    have hc := extractDescription_eq_first c
      (fun m hm hdm => h m (List.mem_append_left _ hm) hdm)
    rw [hc, firstDescContent]
    cases hfc : (preorderList c).find? isDescMeta with
    | some n =>
      have hmem : n ∈ preorderList c := List.mem_of_find?_eq_some hfc
      have hp : isDescMeta n = true := List.find?_some hfc
      have hne := h n (List.mem_append_left _ hmem) hp
      rw [if_pos hne]
      rfl
    | none =>
      rw [if_neg (by simp)]
      have hcs := extractDescriptionList_eq_first cs
        (fun m hm hdm => h m (List.mem_append_right _ hm) hdm)
      rw [hcs]
      rfl

end

/-- C9 counterexample: "first match wins" fails.  In a tree whose first
pre-order `title` element is empty while a later one has text (`T2`), the
claimed value (text of the first title, computed by `specFirstTitleText`,
modelled from the claim) is the empty string, but `extractTitle` skips the
empty first title — its recursion only keeps non-empty results — and
returns `T2` from the later title. -/
theorem extractTitle_first_empty_counterexample :
    extractTitle exTitleTree = "T2" ∧
    specFirstTitleText exTitleTree = "" ∧
    ("T2" : String) ≠ "" := by decide

/-- C9 amended: on document trees in which every `title` element has a first
child with non-empty `Data` and every description `meta` element (one with
`name="description"` and a `content` attribute) has non-empty content,
`GetMetadata` returns the first-child `Data` of the first pre-order `title`
element (empty when there is none) and the content of the first pre-order
description `meta` element (empty when there is none); the code returns the
first-child `Data`, which is the element text whenever that child is a text
node.  Without the non-emptiness conditions, an empty first match is skipped
and a later match wins. -/
theorem getMetadata_first_match (doc : HtmlNode)
    (htitle : ∀ m ∈ preorderList doc, isTitleElem m = true →
      isTitleWithChild m = true ∧ (m.childrenOf.headD HtmlNode.dummy).dataOf ≠ "")
    (hdesc : ∀ m ∈ preorderList doc, isDescMeta m = true →
      (metaDescContent m.attrsOf).getD "" ≠ "") :
    getMetadata (some doc) = .ok ⟨firstTitleData doc, firstDescContent doc⟩ := by
  rw [getMetadata]
  rw [extractTitle_eq_first doc htitle, extractDescription_eq_first doc hdesc]

/-- C9 witness: the amended theorem applied to the example tree with one
non-empty title and one description meta. -/
theorem getMetadata_first_match_witness :
    getMetadata (some exGoodMetaTree) =
      .ok ⟨firstTitleData exGoodMetaTree, firstDescContent exGoodMetaTree⟩ :=
  getMetadata_first_match exGoodMetaTree (by decide) (by decide)
